import Mathlib

/- Shallow embedding of the BeatBank audio feature extractor
(backend/utils/dsp.py, analyze_audio) and audio-reactive video compositor
(backend/utils/visualizer.py, VisualizerEngine).  Python/numpy floats are
modelled as exact rationals; the transcendental parts of the visualizer
(np.sin) are modelled over the reals.  Elementary numpy primitives
(np.mean, np.diff, np.max, np.argmax, np.clip, np.linspace, int()) are
modelled directly; the librosa black boxes (decoding, beat tracking,
feature matrices) and the square root inside np.std are oracle inputs. -/

namespace BeatBank

/-- Python int() applied to a float value, modelled on the rationals:
truncation toward zero. -/
def pyTrunc (q : ℚ) : ℤ := if q < 0 then -⌊-q⌋ else ⌊q⌋

/-- np.clip(x, lo, hi), which numpy documents as
np.minimum(hi, np.maximum(x, lo)). -/
def npClip (x lo hi : ℤ) : ℤ := min (max x lo) hi

/-- np.mean of a 1-D array. -/
def npMean (xs : List ℚ) : ℚ := xs.sum / xs.length

/-- np.diff: out i = a (i+1) - a i, one element shorter than the input. -/
def npDiff (xs : List ℚ) : List ℚ := List.zipWith (fun b a => b - a) xs.tail xs

/-- np.max of a 1-D array (undefined-on-empty modelled as 0). -/
def npMaxQ : List ℚ → ℚ
  | [] => 0
  | [x] => x
  | x :: y :: rest => max x (npMaxQ (y :: rest))

/-- np.min of a 1-D array (undefined-on-empty modelled as 0). -/
def npMinQ : List ℚ → ℚ
  | [] => 0
  | [x] => x
  | x :: y :: rest => min x (npMinQ (y :: rest))

/-- np.argmax: index of the first occurrence of the maximum value. -/
def npArgmax : List ℚ → ℕ
  | [] => 0
  | [_] => 0
  | x :: y :: rest => if x < npMaxQ (y :: rest) then npArgmax (y :: rest) + 1 else 0

/-- np.std (population form): square root of the mean squared deviation.
The variance is computed exactly in the rationals; the square root itself is
an irrational-valued numeric primitive and is abstracted as the sqrtF
argument (supplied by the library-call environment). -/
def npStd (sqrtF : ℚ → ℚ) (xs : List ℚ) : ℚ :=
  sqrtF (npMean (xs.map (fun x => (x - npMean xs) ^ 2)))

/-- Results of the librosa/numpy library calls that analyze_audio makes for
one input path.  A decoded waveform is its sample list together with the
sample rate.  load (librosa.load) and beatTrack (librosa.beat.beat_track) can
raise and are therefore Except-valued; the remaining feature extractors are
total.  chromaOf returns the 12 pitch-class rows of librosa.feature.chroma_stft
(each row is that pitch class's time series), and sqrtF is the square root
used by np.std. -/
structure LibEnv where
  load : Except String (List ℚ × ℚ)
  getDuration : List ℚ → ℚ → ℚ
  beatTrack : List ℚ → ℚ → Except String (ℚ × List ℚ)
  framesToTime : List ℚ → ℚ → List ℚ
  rmsOf : List ℚ → List ℚ
  centroidOf : List ℚ → ℚ → List ℚ
  chromaOf : List ℚ → ℚ → Fin 12 → List ℚ
  sqrtF : ℚ → ℚ

/-- The successful result record of analyze_audio: the eight feature fields
of the returned dict. -/
structure FeatureRecord where
  bpm : ℚ
  key : String
  key_confidence : ℚ
  energy_rms : ℚ
  brightness : ℚ
  dynamic_range : ℚ
  tempo_stability : ℚ
  duration_sec : ℚ

/-- The shape of the dict returned by analyze_audio: either the full feature
record, or a record of the single-key shape with only an error message. -/
inductive AnalyzeResult where
  | ok (r : FeatureRecord)
  | error (msg : String)

/-- The fixed pitch-class ordering KEY_MAP of analyze_audio. -/
def KEY_MAP : List String :=
  ["C", "C#", "D", "D#", "E", "F"] ++ ["F#", "G", "G#", "A", "A#", "B"]

/-- chroma_mean = np.mean(chroma, axis=1): the time average of each of the 12
chroma rows, as a 12-element list. -/
def chromaMeanOf (env : LibEnv) (y : List ℚ) (sr : ℚ) : List ℚ :=
  (List.finRange 12).map (fun i => npMean (env.chromaOf y sr i))

/-- The feature record assembled by a successful run of analyze_audio on the
decoded waveform (y, sr) with beat-tracker output (tempo, beat_frames). -/
def analyzeRecord (env : LibEnv) (y : List ℚ) (sr tempo : ℚ)
    (beat_frames : List ℚ) : FeatureRecord :=
  { bpm := tempo,
    key := KEY_MAP.getD (npArgmax (chromaMeanOf env y sr)) "C",
    key_confidence := npMaxQ (chromaMeanOf env y sr),
    energy_rms := npMean (env.rmsOf y),
    brightness := npMean (env.centroidOf y sr),
    dynamic_range := npMaxQ (env.rmsOf y) - npMinQ (env.rmsOf y),
    tempo_stability :=
      if 1 < beat_frames.length then
        1 - npStd env.sqrtF (npDiff (env.framesToTime beat_frames sr))
      else 0,
    duration_sec := env.getDuration y sr }

/-- The body of analyze_audio's try block: the sequence of feature
computations, propagating any library failure. -/
def analyzeBody (env : LibEnv) : Except String FeatureRecord :=
  match env.load with
  | .error e => .error e
  | .ok (y, sr) =>
    match env.beatTrack y sr with
    | .error e => .error e
    | .ok (tempo, beat_frames) => .ok (analyzeRecord env y sr tempo beat_frames)

/-- analyze_audio: the try/except wrapper around the body.  Any failure of
the body is caught and converted into the single-key error record. -/
def analyze_audio (env : LibEnv) : AnalyzeResult :=
  match analyzeBody env with
  | .ok r => .ok r
  | .error e => .error e

/-- A concrete library-call environment (a tiny decodable input with two
detected beats), used to instantiate the extractor theorems. -/
def envW : LibEnv where
  load := .ok ([0], 1)
  getDuration := fun _ _ => 1
  beatTrack := fun _ _ => .ok (120, [1, 2])
  framesToTime := fun fs _ => fs
  rmsOf := fun ys => ys
  centroidOf := fun _ _ => [1]
  chromaOf := fun _ _ _ => [1]
  sqrtF := fun _ => 0

/-- The frame index computed by VisualizerEngine.get_rms_at_time and
get_spectrum_at_time: int((t / duration_audio) * feature_length), clipped to
the array bounds. -/
def rmsIdx (t D : ℚ) (L : ℕ) : ℤ :=
  npClip (pyTrunc (t / D * (L : ℚ))) 0 ((L : ℤ) - 1)

/-- The index computation as the specification words it (round instead of
the implementation's int() truncation); kept separate from rmsIdx so the two
can be compared. -/
def claimRoundIdx (t D : ℚ) (L : ℕ) : ℤ :=
  npClip (round (t / D * (L : ℚ))) 0 ((L : ℤ) - 1)

/-- get_rms_at_time: the RMS envelope entry at the clipped index. -/
def get_rms_at_time (rms : List ℚ) (D t : ℚ) : ℚ :=
  rms.getD (rmsIdx t D rms.length).toNat 0

/-- get_spectrum_at_time: the spectrogram column at the clipped index (the
spectrogram is held as its list of time-frame columns). -/
def get_spectrum_at_time (spec : List (List ℚ)) (D t : ℚ) : List ℚ :=
  spec.getD (rmsIdx t D spec.length).toNat []

/-- np.linspace(a, b, n) with the default endpoint=True: n evenly spaced
values from a to b inclusive, step (b - a)/(n - 1). -/
def pyLinspace (a b : ℚ) (n : ℕ) : List ℚ :=
  (List.range n).map (fun i => a + (b - a) * (i : ℚ) / ((n : ℚ) - 1))

/-- The bar-sampling index array of effect_waveform:
np.linspace(0, len(spectrum), 100).astype(int). -/
def wfBand (len : ℕ) : List ℤ :=
  (pyLinspace 0 (len : ℚ) 100).map pyTrunc

/-- Numpy fancy indexing xs[idx]: every index must lie in
[-len, len); negative indices wrap; an out-of-range index raises. -/
def npFancyIndex (xs : List ℚ) (idx : List ℤ) : Except String (List ℚ) :=
  if ∀ i ∈ idx, -(xs.length : ℤ) ≤ i ∧ i < (xs.length : ℤ) then
    .ok (idx.map (fun i => xs.getD (if i < 0 then i + (xs.length : ℤ) else i).toNat 0))
  else .error "index out of bounds"

/-- Lines 83-84 of effect_waveform: sample the spectrum column at the band
indices and normalize by the maximum of the sampled values plus 1e-6. -/
def effect_waveform_values (spectrum : List ℚ) : Except String (List ℚ) :=
  match npFancyIndex spectrum (wfBand spectrum.length) with
  | .error e => .error e
  | .ok sampled =>
      .ok (sampled.map (fun x => x / npMaxQ (sampled.map (fun z => z + 1 / 1000000))))

/-- One bar rectangle written by the drawing loop of effect_waveform:
overlay[y1:y2, x1:x2] = color. -/
structure WFBar where
  x1 : ℤ
  x2 : ℤ
  y1 : ℤ
  y2 : ℤ
  color : ℕ × ℕ × ℕ

/-- The bar drawn for value v at bar index i on a w-by-h frame: height
int(v * h * 0.4), bottom-anchored, bar width w // 100, color (0, 255, 200). -/
def barOf (w h : ℕ) (i : ℕ) (v : ℚ) : WFBar :=
  { x1 := (i : ℤ) * ((w / 100 : ℕ) : ℤ),
    x2 := (i : ℤ) * ((w / 100 : ℕ) : ℤ) + ((w / 100 : ℕ) : ℤ) - 1,
    y1 := (h : ℤ) - pyTrunc (v * (h : ℚ) * (2 / 5)),
    y2 := (h : ℤ),
    color := (0, 255, 200) }

/-- The for-loop of effect_waveform, carrying the running enumerate index. -/
def drawBarsAux (w h : ℕ) : ℕ → List ℚ → List WFBar
  | _, [] => []
  | i, v :: rest => barOf w h i v :: drawBarsAux w h (i + 1) rest

/-- All bars drawn by effect_waveform for a list of normalized values. -/
def drawBars (values : List ℚ) (w h : ℕ) : List WFBar :=
  drawBarsAux w h 0 values

/-- The EffectToggleSet: the boolean flags consulted by make_frame, plus the
reserved, never-consulted spectrum flag. -/
structure Effects where
  pulse : Bool
  zoom : Bool
  vhs : Bool
  waveform : Bool
  spectrum : Bool

/-- make_frame of VisualizerEngine.build, abstracted over the four effect
transforms: pulse, zoom and vhs each map (frame, t) to a frame; the waveform
step maps (t, frame) to the blended frame.  Each is applied only when its
toggle is set, in the fixed source order. -/
def makeFrame {F : Type} (pulseF zoomF vhsF : F → ℝ → F) (wfF : ℝ → F → F)
    (eff : Effects) (t : ℝ) (f : F) : F :=
  let f1 := if eff.pulse then pulseF f t else f
  let f2 := if eff.zoom then zoomF f1 t else f1
  let f3 := if eff.vhs then vhsF f2 t else f2
  if eff.waveform then wfF t f3 else f3

/-- The effect chain as the specification words it: the ordered list
pulse, zoom, vhs, waveform-overlay, each paired with its toggle. -/
def chainSteps {F : Type} (pulseF zoomF vhsF : F → ℝ → F) (wfF : ℝ → F → F)
    (eff : Effects) (t : ℝ) : List (Bool × (F → F)) :=
  [(eff.pulse, fun fr => pulseF fr t),
   (eff.zoom, fun fr => zoomF fr t),
   (eff.vhs, fun fr => vhsF fr t),
   (eff.waveform, fun fr => wfF t fr)]

/-- Applying an ordered toggled chain: each enabled step transforms the
frame, each disabled step leaves it unchanged at its position. -/
def specChain {F : Type} (steps : List (Bool × (F → F))) (f : F) : F :=
  steps.foldl (fun fr p => if p.1 then p.2 fr else fr) f

/-- Python int() on a real value: truncation toward zero. -/
noncomputable def pyTruncR (x : ℝ) : ℤ := if x < 0 then -⌊-x⌋ else ⌊x⌋

/-- The horizontal shift of effect_vhs: int(5 * np.sin(t * 25)). -/
noncomputable def vhsShift (t : ℝ) : ℤ := pyTruncR (5 * Real.sin (t * 25))

/-- The vhs shift as the specification words it: round(5 * sin(25 t));
kept separate from vhsShift so the two can be compared. -/
noncomputable def claimVhsShift (t : ℝ) : ℤ := round (5 * Real.sin (t * 25))

/-- effect_vhs, abstracted over the moviepy crop primitive:
frame.crop(x1=shift, y1=0). -/
noncomputable def effect_vhs {F : Type} (crop : ℤ → ℤ → F → F) (f : F) (t : ℝ) : F :=
  crop (vhsShift t) 0 f

/-- Helper: Python truncation agrees with the floor on nonnegative values. -/
theorem pyTrunc_of_nonneg {q : ℚ} (h : 0 ≤ q) : pyTrunc q = ⌊q⌋ := if_neg (not_lt.2 h)

/-- Helper: truncation is monotone on nonnegative values. -/
theorem pyTrunc_mono_of_nonneg {a b : ℚ} (ha : 0 ≤ a) (hab : a ≤ b) :
    pyTrunc a ≤ pyTrunc b := by
  rw [pyTrunc_of_nonneg ha, pyTrunc_of_nonneg (ha.trans hab)]
  exact Int.floor_le_floor hab

/-- C1: analyze_audio never lets a failure escape: every run is either the
single-key error record carrying the caught message, or the full feature
record produced by the successful body. -/
theorem analyze_audio_error_dichotomy (env : LibEnv) :
    (∃ e, analyzeBody env = Except.error e ∧ analyze_audio env = AnalyzeResult.error e) ∨
    (∃ r, analyzeBody env = Except.ok r ∧ analyze_audio env = AnalyzeResult.ok r) := by
  cases h : analyzeBody env with
  | error e => exact Or.inl ⟨e, rfl, by simp [analyze_audio, h]⟩
  | ok r => exact Or.inr ⟨r, rfl, by simp [analyze_audio, h]⟩

/-- C2 counterexample: at t = 0.27, duration 10, feature length 100 the
implementation's index is 2 (truncation of 2.7) while the round form the
claim states gives 3. -/
theorem lookup_round_counterexample :
    rmsIdx (27 / 100) 10 100 = 2 ∧ claimRoundIdx (27 / 100) 10 100 = 3 := by
  constructor
  · norm_num [rmsIdx, npClip, pyTrunc]
  · norm_num [claimRoundIdx, npClip, round_eq]

/-- C2 amended: both time-to-feature lookups compute
index = int((t / total_audio_duration) * feature_length) (truncation toward
zero, not round), clip it to the array bounds, and return the entry or
column at that index. -/
theorem lookup_trunc_amended (rms : List ℚ) (spec : List (List ℚ)) (D t : ℚ) :
    get_rms_at_time rms D t =
      rms.getD (npClip (pyTrunc (t / D * (rms.length : ℚ))) 0 ((rms.length : ℤ) - 1)).toNat 0 ∧
    get_spectrum_at_time spec D t =
      spec.getD (npClip (pyTrunc (t / D * (spec.length : ℚ))) 0 ((spec.length : ℤ) - 1)).toNat [] :=
  ⟨rfl, rfl⟩

/-- C4: for any time (even past the audio duration) the clipped lookup index
stays inside [0, feature_length - 1], so the feature access is in bounds. -/
theorem lookup_index_in_range (t D : ℚ) (L : ℕ) (hL : 1 ≤ L) :
    0 ≤ rmsIdx t D L ∧ rmsIdx t D L ≤ (L : ℤ) - 1 ∧ (rmsIdx t D L).toNat < L := by
  have hL' : (1 : ℤ) ≤ (L : ℤ) := by exact_mod_cast hL
  unfold rmsIdx npClip
  refine ⟨le_min (le_max_right _ _) (by omega), min_le_right _ _, ?_⟩
  have h1 : (0 : ℤ) ≤ min (max (pyTrunc (t / D * (L : ℚ))) 0) ((L : ℤ) - 1) :=
    le_min (le_max_right _ _) (by omega)
  have h2 : min (max (pyTrunc (t / D * (L : ℚ))) 0) ((L : ℤ) - 1) ≤ (L : ℤ) - 1 :=
    min_le_right _ _
  omega

/-- C4 witness: a concrete in-range instance. -/
theorem lookup_index_in_range_witness :
    0 ≤ rmsIdx 7 3 5 ∧ rmsIdx 7 3 5 ≤ (5 : ℤ) - 1 ∧ (rmsIdx 7 3 5).toNat < 5 :=
  lookup_index_in_range 7 3 5 (by norm_num)

/-- C5: the time-to-feature index is monotonically nondecreasing in time on
[0, total_audio_duration]. -/
theorem lookup_monotone (D : ℚ) (L : ℕ) (t1 t2 : ℚ) (hD : 0 < D)
    (h0 : 0 ≤ t1) (h12 : t1 < t2) (h2 : t2 ≤ D) :
    rmsIdx t1 D L ≤ rmsIdx t2 D L := by
  have hdiv : t1 / D ≤ t2 / D := (div_le_div_iff_of_pos_right hD).mpr h12.le
  have hmul : t1 / D * (L : ℚ) ≤ t2 / D * (L : ℚ) :=
    mul_le_mul_of_nonneg_right hdiv (Nat.cast_nonneg L)
  have h0' : 0 ≤ t1 / D * (L : ℚ) :=
    mul_nonneg (div_nonneg h0 hD.le) (Nat.cast_nonneg L)
  have htr : pyTrunc (t1 / D * (L : ℚ)) ≤ pyTrunc (t2 / D * (L : ℚ)) :=
    pyTrunc_mono_of_nonneg h0' hmul
  unfold rmsIdx npClip
  exact min_le_min (max_le_max htr le_rfl) le_rfl

/-- C5 witness: a concrete monotone instance. -/
theorem lookup_monotone_witness : rmsIdx 1 10 100 ≤ rmsIdx 2 10 100 :=
  lookup_monotone 10 100 1 2 (by norm_num) (by norm_num) (by norm_num) (by norm_num)

/-- C3: the band of sampling indices of effect_waveform always contains
len(spectrum) itself (the exact right endpoint of np.linspace), so the fancy
index spectrum[band] is out of range and the effect raises instead of
producing normalized bar values. -/
theorem waveform_band_out_of_range (spectrum : List ℚ) :
    effect_waveform_values spectrum = Except.error "index out of bounds" := by
  have hval : (0 : ℚ) + ((spectrum.length : ℚ) - 0) * ((99 : ℕ) : ℚ) / (((100 : ℕ) : ℚ) - 1)
      = (spectrum.length : ℚ) := by norm_num
  have hmemL : (spectrum.length : ℚ) ∈ pyLinspace 0 (spectrum.length : ℚ) 100 := by
    unfold pyLinspace
    rw [List.mem_map]
    refine ⟨99, by decide, ?_⟩
    exact hval
  have hmem : ((spectrum.length : ℤ)) ∈ wfBand spectrum.length := by
    unfold wfBand
    refine List.mem_map.mpr ⟨(spectrum.length : ℚ), hmemL, ?_⟩
    rw [pyTrunc_of_nonneg (Nat.cast_nonneg _)]
    exact Int.floor_natCast _
  have hnot : ¬ ∀ i ∈ wfBand spectrum.length,
      -(spectrum.length : ℤ) ≤ i ∧ i < (spectrum.length : ℤ) :=
    fun hall => absurd (hall _ hmem).2 (lt_irrefl _)
  have hidx : npFancyIndex spectrum (wfBand spectrum.length)
      = Except.error "index out of bounds" := by
    unfold npFancyIndex
    exact if_neg hnot
  unfold effect_waveform_values
  rw [hidx]

/-- Helper: any member of a list is bounded by its np.max. -/
theorem mem_le_npMaxQ {a : ℚ} {xs : List ℚ} (h : a ∈ xs) : a ≤ npMaxQ xs := by
  induction xs with
  | nil => cases h
  | cons x rest ih =>
    cases rest with
    | nil =>
      rw [List.mem_singleton] at h
      exact le_of_eq (h ▸ rfl)
    | cons y r2 =>
      rw [show npMaxQ (x :: y :: r2) = max x (npMaxQ (y :: r2)) from rfl]
      rcases List.mem_cons.mp h with h1 | h2
      · exact h1 ▸ le_max_left _ _
      · exact le_trans (ih h2) (le_max_right _ _)

/-- Helper: np.argmax of a nonempty list is a valid index. -/
theorem npArgmax_lt_length {xs : List ℚ} (h : xs ≠ []) : npArgmax xs < xs.length := by
  induction xs with
  | nil => exact absurd rfl h
  | cons x rest ih =>
    cases rest with
    | nil => simp [npArgmax]
    | cons y r2 =>
      rw [show npArgmax (x :: y :: r2)
          = (if x < npMaxQ (y :: r2) then npArgmax (y :: r2) + 1 else 0) from rfl]
      split
      · have := ih (List.cons_ne_nil y r2)
        simp only [List.length_cons] at this ⊢
        omega
      · simp

/-- Helper: the entry at np.argmax is np.max. -/
theorem getD_npArgmax {xs : List ℚ} (h : xs ≠ []) :
    xs.getD (npArgmax xs) 0 = npMaxQ xs := by
  induction xs with
  | nil => exact absurd rfl h
  | cons x rest ih =>
    cases rest with
    | nil => rfl
    | cons y r2 =>
      by_cases hx : x < npMaxQ (y :: r2)
      · rw [show npArgmax (x :: y :: r2)
            = (if x < npMaxQ (y :: r2) then npArgmax (y :: r2) + 1 else 0) from rfl,
          if_pos hx, List.getD_cons_succ,
          show npMaxQ (x :: y :: r2) = max x (npMaxQ (y :: r2)) from rfl,
          max_eq_right hx.le]
        exact ih (List.cons_ne_nil y r2)
      · rw [show npArgmax (x :: y :: r2)
            = (if x < npMaxQ (y :: r2) then npArgmax (y :: r2) + 1 else 0) from rfl,
          if_neg hx, List.getD_cons_zero,
          show npMaxQ (x :: y :: r2) = max x (npMaxQ (y :: r2)) from rfl,
          max_eq_left (not_lt.1 hx)]

/-- Helper: the mean of a list of nonnegative values is nonnegative. -/
theorem npMean_nonneg {xs : List ℚ} (h : ∀ x ∈ xs, 0 ≤ x) : 0 ≤ npMean xs :=
  div_nonneg (List.sum_nonneg h) (Nat.cast_nonneg _)

/-- Helper: a successful decode and beat track make the whole body succeed
with the assembled record. -/
theorem analyzeBody_ok (env : LibEnv) (y : List ℚ) (sr tempo : ℚ) (beats : List ℚ)
    (hload : env.load = Except.ok (y, sr))
    (hbeat : env.beatTrack y sr = Except.ok (tempo, beats)) :
    analyzeBody env = Except.ok (analyzeRecord env y sr tempo beats) := by
  simp only [analyzeBody, hload, hbeat]

/-- C6: when at least two beats are tracked, tempo_stability is one minus
the standard deviation of the consecutive inter-beat-interval durations
(np.diff of the beat times); with fewer than two beats it is exactly 0. -/
theorem tempo_stability_formula (env : LibEnv) (y : List ℚ) (sr tempo : ℚ)
    (beats : List ℚ) (hload : env.load = Except.ok (y, sr))
    (hbeat : env.beatTrack y sr = Except.ok (tempo, beats)) :
    ∃ r, analyze_audio env = AnalyzeResult.ok r ∧
      r.tempo_stability =
        if 1 < beats.length then
          1 - npStd env.sqrtF (npDiff (env.framesToTime beats sr))
        else 0 := by
  have hb := analyzeBody_ok env y sr tempo beats hload hbeat
  exact ⟨analyzeRecord env y sr tempo beats, by simp [analyze_audio, hb], rfl⟩

/-- C6 witness: a concrete run with two tracked beats. -/
theorem tempo_stability_formula_witness :
    ∃ r, analyze_audio envW = AnalyzeResult.ok r ∧
      r.tempo_stability =
        if 1 < ([1, 2] : List ℚ).length then
          1 - npStd envW.sqrtF (npDiff (envW.framesToTime [1, 2] 1))
        else 0 :=
  tempo_stability_formula envW [0] 1 120 [1, 2] rfl rfl

/-- C7: on a successful run the detected key is the arg-max bin of the
time-averaged 12-bin chroma profile mapped through the fixed KEY_MAP
ordering, hence always one of the 12 pitch-class labels, and key_confidence
is the chroma magnitude of that bin, which is nonnegative whenever the
chroma rows are nonempty and nonnegative (as chroma_stft guarantees). -/
theorem key_detection_argmax (env : LibEnv) (y : List ℚ) (sr tempo : ℚ)
    (beats : List ℚ) (hload : env.load = Except.ok (y, sr))
    (hbeat : env.beatTrack y sr = Except.ok (tempo, beats))
    (hrows : ∀ i : Fin 12, env.chromaOf y sr i ≠ [])
    (hnn : ∀ i : Fin 12, ∀ x ∈ env.chromaOf y sr i, 0 ≤ x) :
    ∃ r, analyze_audio env = AnalyzeResult.ok r ∧
      r.key = KEY_MAP.getD (npArgmax (chromaMeanOf env y sr)) "C" ∧
      npArgmax (chromaMeanOf env y sr) < 12 ∧
      r.key ∈ KEY_MAP ∧
      r.key_confidence = (chromaMeanOf env y sr).getD (npArgmax (chromaMeanOf env y sr)) 0 ∧
      0 ≤ r.key_confidence := by
  have hb := analyzeBody_ok env y sr tempo beats hload hbeat
  have hlen : (chromaMeanOf env y sr).length = 12 := by simp [chromaMeanOf]
  have hne : chromaMeanOf env y sr ≠ [] := by
    intro h0
    rw [h0] at hlen
    exact absurd hlen (by norm_num)
  have hidx : npArgmax (chromaMeanOf env y sr) < 12 := hlen ▸ npArgmax_lt_length hne
  have hmemkey : KEY_MAP.getD (npArgmax (chromaMeanOf env y sr)) "C" ∈ KEY_MAP := by
    have hklen : npArgmax (chromaMeanOf env y sr) < KEY_MAP.length := by
      rw [show KEY_MAP.length = 12 from rfl]
      exact hidx
    rw [List.getD_eq_getElem _ _ hklen]
    exact List.getElem_mem _
  have hconf : (chromaMeanOf env y sr).getD (npArgmax (chromaMeanOf env y sr)) 0
      = npMaxQ (chromaMeanOf env y sr) := getD_npArgmax hne
  have h0mem : npMean (env.chromaOf y sr 0) ∈ chromaMeanOf env y sr :=
    List.mem_map.mpr ⟨0, List.mem_finRange 0, rfl⟩
  have hconf0 : 0 ≤ npMaxQ (chromaMeanOf env y sr) :=
    le_trans (npMean_nonneg (hnn 0)) (mem_le_npMaxQ h0mem)
  exact ⟨analyzeRecord env y sr tempo beats, by simp [analyze_audio, hb],
    rfl, hidx, hmemkey, hconf.symm, hconf0⟩

/-- C7 witness: a concrete run with nonempty, nonnegative chroma rows. -/
theorem key_detection_argmax_witness :
    ∃ r, analyze_audio envW = AnalyzeResult.ok r ∧
      r.key = KEY_MAP.getD (npArgmax (chromaMeanOf envW [0] 1)) "C" ∧
      npArgmax (chromaMeanOf envW [0] 1) < 12 ∧
      r.key ∈ KEY_MAP ∧
      r.key_confidence = (chromaMeanOf envW [0] 1).getD (npArgmax (chromaMeanOf envW [0] 1)) 0 ∧
      0 ≤ r.key_confidence :=
  key_detection_argmax envW [0] 1 120 [1, 2] rfl rfl (by decide) (by decide)

/-- C8 counterexample: at t = pi/100 the code's shift int(5 sin(pi/4)) is 3
(truncation of 3.535...), while the round form the claim states gives 4. -/
theorem vhs_round_counterexample :
    vhsShift (Real.pi / 100) = 3 ∧ claimVhsShift (Real.pi / 100) = 4 := by
  have harg : Real.pi / 100 * 25 = Real.pi / 4 := by ring
  have hsin : Real.sin (Real.pi / 100 * 25) = Real.sqrt 2 / 2 := by
    rw [harg, Real.sin_pi_div_four]
  have h2 : Real.sqrt 2 ^ 2 = 2 := Real.sq_sqrt (by norm_num)
  have hnn : (0 : ℝ) ≤ Real.sqrt 2 := Real.sqrt_nonneg 2
  have hlb : (3 : ℝ) ≤ 5 * (Real.sqrt 2 / 2) := by nlinarith [h2, hnn]
  have hub : 5 * (Real.sqrt 2 / 2) < 4 := by nlinarith [h2, hnn]
  constructor
  · unfold vhsShift pyTruncR
    rw [hsin, if_neg (not_lt.2 (by linarith))]
    exact Int.floor_eq_iff.mpr ⟨by push_cast; linarith, by push_cast; linarith⟩
  · unfold claimVhsShift
    rw [hsin, round_eq]
    refine Int.floor_eq_iff.mpr ⟨?_, ?_⟩
    · push_cast
      nlinarith [h2, hnn]
    · push_cast
      linarith

/-- C8 amended: effect_vhs crops the frame at the horizontal shift
int(5 * sin(25 t)) (truncation toward zero, not round); the shift always
lies in [-5, 5]. -/
theorem effect_vhs_trunc_amended (F : Type) (crop : ℤ → ℤ → F → F) (f : F) (t : ℝ) :
    effect_vhs crop f t = crop (pyTruncR (5 * Real.sin (t * 25))) 0 f ∧
    -5 ≤ vhsShift t ∧ vhsShift t ≤ 5 := by
  refine ⟨rfl, ?_, ?_⟩
  · unfold vhsShift pyTruncR
    by_cases hneg : 5 * Real.sin (t * 25) < 0
    · rw [if_pos hneg]
      have hb : -(5 * Real.sin (t * 25)) ≤ 5 := by
        have := Real.neg_one_le_sin (t * 25)
        linarith
      have hfl : ⌊-(5 * Real.sin (t * 25))⌋ ≤ 5 := by
        calc ⌊-(5 * Real.sin (t * 25))⌋ ≤ ⌊(5 : ℝ)⌋ := Int.floor_le_floor hb
          _ = 5 := by norm_num
      omega
    · rw [if_neg hneg]
      have hfl : (0 : ℤ) ≤ ⌊5 * Real.sin (t * 25)⌋ := Int.floor_nonneg.2 (not_lt.1 hneg)
      omega
  · unfold vhsShift pyTruncR
    by_cases hneg : 5 * Real.sin (t * 25) < 0
    · rw [if_pos hneg]
      have hfl : (0 : ℤ) ≤ ⌊-(5 * Real.sin (t * 25))⌋ := Int.floor_nonneg.2 (by linarith)
      omega
    · rw [if_neg hneg]
      have hb : 5 * Real.sin (t * 25) ≤ 5 := by
        have := Real.sin_le_one (t * 25)
        linarith
      have hfl : ⌊5 * Real.sin (t * 25)⌋ ≤ 5 := by
        calc ⌊5 * Real.sin (t * 25)⌋ ≤ ⌊(5 : ℝ)⌋ := Int.floor_le_floor hb
          _ = 5 := by norm_num
      omega

/-- C9: make_frame applies exactly the enabled effects, in the fixed order
pulse, zoom, vhs, waveform-overlay: it equals the fold of the ordered toggled
chain, in which a disabled step leaves the frame unchanged at its position. -/
theorem effect_chain_order (F : Type) (pulseF zoomF vhsF : F → ℝ → F)
    (wfF : ℝ → F → F) (eff : Effects) (t : ℝ) (f : F) :
    makeFrame pulseF zoomF vhsF wfF eff t f
      = specChain (chainSteps pulseF zoomF vhsF wfF eff t) f := rfl

/-- Helper: geometry of every bar emitted by the drawing loop, for any
starting enumerate index. -/
theorem drawBarsAux_geometry (w h : ℕ) (vs : List ℚ) :
    ∀ i : ℕ, (∀ v ∈ vs, 0 ≤ v ∧ v ≤ 1) →
    ∀ b ∈ drawBarsAux w h i vs,
      b.y2 = (h : ℤ) ∧ b.color = (0, 255, 200) ∧
      0 ≤ b.y2 - b.y1 ∧ ((b.y2 - b.y1 : ℤ) : ℚ) ≤ 2 / 5 * (h : ℚ) := by
  induction vs with
  | nil =>
    intro i _ b hb
    simp [drawBarsAux] at hb
  | cons v rest ih =>
    intro i hvs b hb
    simp only [drawBarsAux] at hb
    have hh : (0 : ℚ) ≤ (h : ℚ) := Nat.cast_nonneg h
    rcases List.mem_cons.mp hb with hb1 | hb2
    · subst hb1
      obtain ⟨hv0, hv1⟩ := hvs v (List.mem_cons_self _ _)
      have h0q : (0 : ℚ) ≤ v * (h : ℚ) * (2 / 5) :=
        mul_nonneg (mul_nonneg hv0 hh) (by norm_num)
      have htr : pyTrunc (v * (h : ℚ) * (2 / 5)) = ⌊v * (h : ℚ) * (2 / 5)⌋ :=
        pyTrunc_of_nonneg h0q
      have htr0 : 0 ≤ pyTrunc (v * (h : ℚ) * (2 / 5)) := htr ▸ Int.floor_nonneg.2 h0q
      refine ⟨rfl, rfl, ?_, ?_⟩
      · simp only [barOf]
        omega
      · simp only [barOf]
        have heq : (h : ℤ) - ((h : ℤ) - pyTrunc (v * (h : ℚ) * (2 / 5)))
            = pyTrunc (v * (h : ℚ) * (2 / 5)) := by ring
        rw [heq, htr]
        have h1 : ((⌊v * (h : ℚ) * (2 / 5)⌋ : ℤ) : ℚ) ≤ v * (h : ℚ) * (2 / 5) :=
          Int.floor_le _
        have h3 : v * (h : ℚ) * (2 / 5) ≤ 2 / 5 * (h : ℚ) := by nlinarith
        linarith
    · exact ih (i + 1) (fun x hx => hvs x (List.mem_cons_of_mem _ hx)) b hb2

/-- C10: every bar drawn by the waveform overlay for normalized values is
anchored to the bottom edge (y2 = h), filled with the fixed color
(0, 255, 200), and its height y2 - y1 is at most 0.4 h. -/
theorem waveform_bar_geometry (values : List ℚ) (w h : ℕ)
    (hv : ∀ v ∈ values, 0 ≤ v ∧ v ≤ 1) :
    ∀ b ∈ drawBars values w h,
      b.y2 = (h : ℤ) ∧ b.color = (0, 255, 200) ∧
      0 ≤ b.y2 - b.y1 ∧ ((b.y2 - b.y1 : ℤ) : ℚ) ≤ 2 / 5 * (h : ℚ) :=
  drawBarsAux_geometry w h values 0 hv

/-- C10 witness: the first bar drawn for values [1/2, 1] on a 100 by 10
frame. -/
theorem waveform_bar_geometry_witness :
    (barOf 100 10 0 (1 / 2)).y2 = ((10 : ℕ) : ℤ) ∧
    (barOf 100 10 0 (1 / 2)).color = (0, 255, 200) ∧
    0 ≤ (barOf 100 10 0 (1 / 2)).y2 - (barOf 100 10 0 (1 / 2)).y1 ∧
    (((barOf 100 10 0 (1 / 2)).y2 - (barOf 100 10 0 (1 / 2)).y1 : ℤ) : ℚ)
      ≤ 2 / 5 * ((10 : ℕ) : ℚ) :=
  waveform_bar_geometry [1 / 2, 1] 100 10 (by norm_num [List.forall_mem_cons])
    (barOf 100 10 0 (1 / 2)) (by simp [drawBars, drawBarsAux])

end BeatBank
